import Mathlib

/-!
Verification of the doubly-linked deque `List<T>` of `src/simple_deque_1.rs`
(the `SharedMutableDeque` of the design document).

The Rust structure uses `Rc<RefCell<Node<T>>>` links.  We embed it as a heap
of explicitly addressed nodes: addresses are natural numbers, the heap is a
list of optional nodes (a `none` slot is deallocated memory), and a `Link<T>`
(`Option<Rc<RefCell<Node<T>>>>`) becomes an `Option Nat`.  Allocation
(`Node::new` / `Rc::new`) appends a fresh slot; the number of strong `Rc`
owners of an address held inside the structure is recovered by counting the
links that designate it (`refCount`).  `Rc::try_unwrap(..).ok().unwrap()` in
`pop_front`/`pop_back` succeeds exactly when the popped node has no owner
left besides the local variable, i.e. when `refCount` of the detached state
is zero; the panicking branch is modelled by `Option` (`none` = panic).
-/

namespace SimpleDeque

/-- Embeds `struct Node<T> { elem: T, next: Link<T>, prev: Link<T> }`:
links are addresses into the heap. -/
structure Node (T : Type) where
  elem : T
  next : Option Nat
  prev : Option Nat
  deriving Repr, DecidableEq

/-- The heap: slot `a` holds the node allocated at address `a`, or `none`
once that allocation has been released. -/
abbrev Heap (T : Type) := List (Option (Node T))

/-- Reading the node at address `a` (dereferencing an `Rc<RefCell<Node<T>>>`). -/
def lookupNode (h : Heap T) (a : Nat) : Option (Node T) :=
  (h[a]?).join

/-- Mutating the node at address `a` in place (a `borrow_mut` write);
a no-op on a dead or out-of-range address. -/
def modifyNode (h : Heap T) (a : Nat) (f : Node T → Node T) : Heap T :=
  match lookupNode h a with
  | some nd => h.set a (some (f nd))
  | none => h

/-- Releasing the allocation at address `a` (the node's memory is freed). -/
def freeAt (h : Heap T) (a : Nat) : Heap T :=
  h.set a none

/-- Embeds `pub struct List<T> { head: Link<T>, tail: Link<T> }`, together
with the heap holding its nodes. -/
structure DList (T : Type) where
  heap : Heap T
  head : Option Nat
  tail : Option Nat
  deriving Repr, DecidableEq

/-- Embeds `List::new()`: both links absent, nothing allocated. -/
def DList.new : DList T :=
  { heap := [], head := none, tail := none }

/-- Number of strong `Rc` owners of address `a` stored inside the structure:
the head and tail links plus every `next`/`prev` link of a live node that
designates `a`.  (A local variable holding an extra clone is not part of the
state and is accounted for separately at its use site.) -/
def refCount (s : DList T) (a : Nat) : Nat :=
  (if s.head = some a then 1 else 0) + (if s.tail = some a then 1 else 0) +
    ((List.range s.heap.length).map (fun b =>
      match lookupNode s.heap b with
      | none => 0
      | some nd =>
          (if nd.next = some a then 1 else 0) + (if nd.prev = some a then 1 else 0))).sum

/-- Embeds `List::push_front`: allocate `Node::new(elem)`; if there is an old
head, set its `prev` to the new node, the new node's `next` to the old head,
and move the head link; otherwise the new node becomes both head and tail. -/
def DList.push_front (s : DList T) (elem : T) : DList T :=
  let n := s.heap.length
  let heap1 := s.heap ++ [some { elem := elem, next := none, prev := none }]
  match s.head with
  | some oldHead =>
      { heap := modifyNode (modifyNode heap1 oldHead (fun nd => { nd with prev := some n }))
          n (fun nd => { nd with next := some oldHead }),
        head := some n, tail := s.tail }
  | none =>
      { heap := heap1, head := some n, tail := some n }

/-- Embeds `List::push_back`, symmetric to `push_front`. -/
def DList.push_back (s : DList T) (elem : T) : DList T :=
  let n := s.heap.length
  let heap1 := s.heap ++ [some { elem := elem, next := none, prev := none }]
  match s.tail with
  | some oldTail =>
      { heap := modifyNode (modifyNode heap1 oldTail (fun nd => { nd with next := some n }))
          n (fun nd => { nd with prev := some oldTail }),
        head := s.head, tail := some n }
  | none =>
      { heap := heap1, head := some n, tail := some n }

/-- Embeds the first phase of `List::pop_front`: `self.head.take()`, then
`old_head.borrow_mut().next.take()`; when there is a next node, clear its
`prev` and install it as head, otherwise also take the tail link.  Returns
the detached address, a copy of its node as read, and the state just before
`Rc::try_unwrap`.  `none` only on a dangling head (unreachable from the API). -/
def DList.detach_front (s : DList T) : Option (Nat × Node T × DList T) :=
  match s.head with
  | none => none
  | some oldHead =>
      match lookupNode s.heap oldHead with
      | none => none
      | some nd =>
          match nd.next with
          | some nxt =>
              some (oldHead, nd,
                { heap := modifyNode (modifyNode s.heap oldHead (fun m => { m with next := none }))
                    nxt (fun m => { m with prev := none }),
                  head := some nxt, tail := s.tail })
          | none =>
              some (oldHead, nd, { heap := s.heap, head := none, tail := none })

/-- Embeds `List::pop_front`.  The outer `Option` models panic:
`Rc::try_unwrap(old_head).ok().unwrap()` succeeds only when the list holds
no further owner of the detached node (its local `Rc` is the last one); the
inner `Option T` is the Rust return value. -/
def DList.pop_front (s : DList T) : Option (Option T × DList T) :=
  match s.head with
  | none => some (none, s)
  | some _ =>
      match s.detach_front with
      | none => none
      | some (a, nd, s1) =>
          if refCount s1 a = 0 then
            some (some nd.elem, { s1 with heap := freeAt s1.heap a })
          else none

/-- Embeds the first phase of `List::pop_back`, symmetric to `detach_front`. -/
def DList.detach_back (s : DList T) : Option (Nat × Node T × DList T) :=
  match s.tail with
  | none => none
  | some oldTail =>
      match lookupNode s.heap oldTail with
      | none => none
      | some nd =>
          match nd.prev with
          | some prv =>
              some (oldTail, nd,
                { heap := modifyNode (modifyNode s.heap oldTail (fun m => { m with prev := none }))
                    prv (fun m => { m with next := none }),
                  head := s.head, tail := some prv })
          | none =>
              some (oldTail, nd, { heap := s.heap, head := none, tail := none })

/-- Embeds `List::pop_back`, symmetric to `pop_front`. -/
def DList.pop_back (s : DList T) : Option (Option T × DList T) :=
  match s.tail with
  | none => some (none, s)
  | some _ =>
      match s.detach_back with
      | none => none
      | some (a, nd, s1) =>
          if refCount s1 a = 0 then
            some (some nd.elem, { s1 with heap := freeAt s1.heap a })
          else none

/-- Embeds `List::peek_front`: the value seen through the returned `Ref<T>`. -/
def DList.peek_front (s : DList T) : Option T :=
  s.head.bind fun a => (lookupNode s.heap a).map (·.elem)

/-- Embeds `List::peek_back`. -/
def DList.peek_back (s : DList T) : Option T :=
  s.tail.bind fun a => (lookupNode s.heap a).map (·.elem)

/-- Models writing `v` through the `RefMut<T>` returned by
`List::peek_front_mut`: the head node's `elem` is overwritten in place.
When the deque is empty `peek_front_mut` returns `None` and no write can
happen, so the state is unchanged. -/
def DList.peek_front_mut_write (s : DList T) (v : T) : DList T :=
  match s.head with
  | none => s
  | some a => { s with heap := modifyNode s.heap a (fun nd => { nd with elem := v }) }

/-- Models writing `v` through the `RefMut<T>` returned by `List::peek_back_mut`. -/
def DList.peek_back_mut_write (s : DList T) (v : T) : DList T :=
  match s.tail with
  | none => s
  | some a => { s with heap := modifyNode s.heap a (fun nd => { nd with elem := v }) }

/-!
The structural invariant.  A chain is the list of node addresses from head
to tail; `chainOk h pr c` checks that consecutive nodes of `c` are linked by
mutually inverse `next`/`prev` links, with `pr` the expected `prev` of the
first node.
-/

/-- Each address of `c` is live, its `prev` is the preceding address (or
`pr` for the first) and its `next` is the following address (or `none` for
the last). -/
def chainOk (h : Heap T) : Option Nat → List Nat → Bool
  | _, [] => true
  | pr, a :: rest =>
      match lookupNode h a with
      | none => false
      | some nd => nd.prev == pr && nd.next == rest.head? && chainOk h (some a) rest

/-- The sequence of element values along a chain. -/
def chainVals (h : Heap T) (c : List Nat) : List T :=
  c.filterMap fun a => (lookupNode h a).map (·.elem)

/-- Executable well-formedness of a deque state with chain `c`:
the head link is the first chain address and the tail link the last, the
chain is correctly doubly linked, addresses are distinct, and every live
heap address belongs to the chain. -/
def wfB (s : DList T) (c : List Nat) : Bool :=
  s.head == c.head? && s.tail == c.getLast? && chainOk s.heap none c &&
    decide c.Nodup &&
    (List.range s.heap.length).all fun a => (lookupNode s.heap a).isNone || decide (a ∈ c)

/-- Propositional form of `wfB`. -/
structure WfC (s : DList T) (c : List Nat) : Prop where
  head_eq : s.head = c.head?
  tail_eq : s.tail = c.getLast?
  chain : chainOk s.heap none c = true
  nodup : c.Nodup
  lives : ∀ a nd, lookupNode s.heap a = some nd → a ∈ c

/-!  Sequences of public operations. -/

/-- One public mutating operation of the `List<T>` API. -/
inductive Op (T : Type) where
  | push_front (v : T)
  | push_back (v : T)
  | pop_front
  | pop_back

/-- Runs one operation; `none` models a panic inside a pop. -/
def applyOp : Op T → DList T → Option (DList T)
  | .push_front v, s => some (s.push_front v)
  | .push_back v, s => some (s.push_back v)
  | .pop_front, s => (s.pop_front).map (·.2)
  | .pop_back, s => (s.pop_back).map (·.2)

/-- Runs a sequence of operations left to right. -/
def runOps : List (Op T) → DList T → Option (DList T)
  | [], s => some s
  | op :: ops, s => (applyOp op s).bind (runOps ops)


/-!  The consuming bidirectional iterator. -/

/-- Embeds `pub struct IntoIter<T>(List<T>)`. -/
structure IntoIter (T : Type) where
  toList : DList T

/-- Embeds `List::into_iter`. -/
def DList.into_iter (s : DList T) : IntoIter T := ⟨s⟩

/-- Embeds `Iterator::next for IntoIter<T>`: `self.0.pop_front()`. -/
def IntoIter.next (it : IntoIter T) : Option (Option T × IntoIter T) :=
  (it.toList.pop_front).map fun p => (p.1, ⟨p.2⟩)

/-- Embeds `DoubleEndedIterator::next_back for IntoIter<T>`: `self.0.pop_back()`. -/
def IntoIter.next_back (it : IntoIter T) : Option (Option T × IntoIter T) :=
  (it.toList.pop_back).map fun p => (p.1, ⟨p.2⟩)

/-- Runs a sequence of iterator calls (`true` = `next`, `false` = `next_back`)
and collects the direction-tagged results; `none` models a panic. -/
def runIter : List Bool → IntoIter T → Option (List (Bool × Option T) × IntoIter T)
  | [], it => some ([], it)
  | d :: ds, it =>
      match (if d then it.next else it.next_back) with
      | none => none
      | some (r, it') => (runIter ds it').map fun p => ((d, r) :: p.1, p.2)

/-- The values produced by the forward calls, in call order. -/
def frontYields (outs : List (Bool × Option T)) : List T :=
  outs.filterMap fun p => if p.1 then p.2 else none

/-- The values produced by the backward calls, in call order. -/
def backYields (outs : List (Bool × Option T)) : List T :=
  outs.filterMap fun p => if p.1 then none else p.2

/-- True when, after the first absent result, every later result is absent. -/
def monotoneNone (l : List (Option T)) : Bool :=
  (l.dropWhile Option.isSome).all Option.isNone


/-- Repeated direct pops on the deque (`true` = `pop_front`,
`false` = `pop_back`), collecting the returned values. -/
def runPops : List Bool → DList T → Option (List (Option T) × DList T)
  | [], s => some ([], s)
  | d :: ds, s =>
      match (if d then s.pop_front else s.pop_back) with
      | none => none
      | some (r, s') => (runPops ds s').map fun p => (r :: p.1, p.2)

/-!  The runtime borrow flag of a node's `RefCell`, following the standard
library semantics the deque relies on: at any instant a cell is unborrowed,
shared-borrowed by `n` readers, or exclusively borrowed; `borrow` panics
while an exclusive borrow is live, `borrow_mut` panics while any borrow is
live. -/

/-- Borrow state of one `RefCell`. -/
inductive BorrowFlag where
  | free
  | shared (n : Nat)
  | exclusive
  deriving Repr, DecidableEq

/-- Models `RefCell::borrow`: fails (panics) when exclusively borrowed. -/
def tryBorrow : BorrowFlag → Option BorrowFlag
  | .free => some (.shared 1)
  | .shared n => some (.shared (n + 1))
  | .exclusive => none

/-- Models `RefCell::borrow_mut`: fails (panics) unless unborrowed. -/
def tryBorrowMut : BorrowFlag → Option BorrowFlag
  | .free => some .exclusive
  | .shared _ => none
  | .exclusive => none

/-- Models `List::peek_front_mut` acquiring its `RefMut` on the head node:
returns the borrowed address and the updated borrow flags, `none` when the
deque is empty or the acquisition panics. -/
def peek_front_mut_acquire (s : DList T) (flags : Nat → BorrowFlag) :
    Option (Nat × (Nat → BorrowFlag)) :=
  s.head.bind fun a =>
    (tryBorrowMut (flags a)).map fun f => (a, Function.update flags a f)

/-- Models `List::peek_back_mut` acquiring its `RefMut` on the tail node. -/
def peek_back_mut_acquire (s : DList T) (flags : Nat → BorrowFlag) :
    Option (Nat × (Nat → BorrowFlag)) :=
  s.tail.bind fun a =>
    (tryBorrowMut (flags a)).map fun f => (a, Function.update flags a f)

/-!  Rust's automatic drop of the structure.  `List<T>` in
`simple_deque_1.rs` implements no `Drop`, so discarding a deque merely
drops its `head` link and then its `tail` link; dropping an `Rc` link
decrements the target's strong count and, only on reaching zero, frees the
node and recursively drops its `next` and `prev` links. -/

/-- Heap together with the strong count of every address during teardown. -/
structure DropState (T : Type) where
  heap : Heap T
  counts : List Nat
  deriving Repr

/-- Teardown starts with each address owned by every link inside the
structure that designates it. -/
def initDrop (s : DList T) : DropState T :=
  { heap := s.heap, counts := (List.range s.heap.length).map (refCount s) }

/-- Drops one `Rc` link (fuel-bounded recursion; the fuel used below is
always sufficient). -/
def dropRc : Nat → DropState T → Option Nat → DropState T
  | _, d, none => d
  | 0, d, some _ => d
  | fuel + 1, d, some a =>
      let cnt := d.counts.getD a 0
      if cnt ≤ 1 then
        match lookupNode d.heap a with
        | none => { heap := d.heap, counts := d.counts.set a 0 }
        | some nd =>
            let d1 : DropState T := { heap := freeAt d.heap a, counts := d.counts.set a 0 }
            let d2 := dropRc fuel d1 nd.next
            dropRc fuel d2 nd.prev
      else { heap := d.heap, counts := d.counts.set a (cnt - 1) }

/-- Discarding the whole `List<T>` without a `Drop` implementation: the
compiler drops the fields in declaration order, `head` then `tail`. -/
def dropList (s : DList T) : DropState T :=
  let fuel := 2 * s.heap.length + 2
  dropRc fuel (dropRc fuel (initDrop s) s.head) s.tail


/-!  Basic facts about heap reads after heap updates. -/

theorem lookupNode_lt_length {h : Heap T} {a : Nat} {nd : Node T}
    (hl : lookupNode h a = some nd) : a < h.length := by
  by_contra hge
  have : h[a]? = none := by
    simp [List.getElem?_eq_none_iff]; omega
  simp [lookupNode, this] at hl

theorem lookupNode_append_new (h : Heap T) (nd : Node T) (b : Nat) :
    lookupNode (h ++ [some nd]) b = if b = h.length then some nd else lookupNode h b := by
  rcases lt_trichotomy b h.length with hb | hb | hb
  · rw [if_neg (by omega)]
    simp [lookupNode, List.getElem?_append_left hb]
  · subst hb
    simp [lookupNode, List.getElem?_append_right (le_refl _)]
  · rw [if_neg (by omega)]
    have h1 : (h ++ [some nd])[b]? = none := by
      simp [List.getElem?_eq_none_iff]; omega
    have h2 : h[b]? = none := by
      simp [List.getElem?_eq_none_iff]; omega
    simp [lookupNode, h1, h2]

theorem lookupNode_set_none (h : Heap T) (a b : Nat) :
    lookupNode (h.set a none) b = if b = a then none else lookupNode h b := by
  by_cases hb : b = a
  · subst hb
    simp only [if_pos rfl]
    by_cases hlt : b < h.length
    · simp [lookupNode, List.getElem?_set_self, hlt]
    · rw [List.set_eq_of_length_le (by omega)]
      have : h[b]? = none := by simp [List.getElem?_eq_none_iff]; omega
      simp [lookupNode, this]
  · have hab : a ≠ b := fun hh => hb hh.symm
    simp [lookupNode, List.getElem?_set_ne hab, hb]

theorem lookupNode_modify (h : Heap T) (a : Nat) (f : Node T → Node T) (b : Nat) :
    lookupNode (modifyNode h a f) b =
      if b = a then (lookupNode h a).map f else lookupNode h b := by
  unfold modifyNode
  rcases hla : lookupNode h a with _ | nd
  · by_cases hb : b = a <;> simp [hb, hla]
  · have hlt : a < h.length := lookupNode_lt_length hla
    by_cases hb : b = a
    · subst hb
      simp [lookupNode, List.getElem?_set_self, hlt, hla]
    · have hab : a ≠ b := fun hh => hb hh.symm
      simp [lookupNode, List.getElem?_set_ne hab, hb, hla]

theorem length_modifyNode (h : Heap T) (a : Nat) (f : Node T → Node T) :
    (modifyNode h a f).length = h.length := by
  unfold modifyNode
  rcases lookupNode h a with _ | nd <;> simp

theorem length_freeAt (h : Heap T) (a : Nat) : (freeAt h a).length = h.length := by
  simp [freeAt]

theorem lookupNode_freeAt (h : Heap T) (a b : Nat) :
    lookupNode (freeAt h a) b = if b = a then none else lookupNode h b :=
  lookupNode_set_none h a b

/-!  Chain lemmas. -/

theorem chainOk_congr {h1 h2 : Heap T} {c : List Nat}
    (hcong : ∀ a ∈ c, (lookupNode h1 a).map (fun nd => (nd.prev, nd.next)) =
      (lookupNode h2 a).map (fun nd => (nd.prev, nd.next))) :
    ∀ pr, chainOk h1 pr c = chainOk h2 pr c := by
  induction c with
  | nil => intro pr; rfl
  | cons a rest ih =>
      intro pr
      have ha := hcong a (List.mem_cons_self a rest)
      rcases h1a : lookupNode h1 a with _ | nd1 <;> rcases h2a : lookupNode h2 a with _ | nd2 <;>
        rw [h1a, h2a] at ha <;> simp at ha
      · simp [chainOk, h1a, h2a]
      · simp only [chainOk, h1a, h2a]
        rw [ha.1, ha.2, ih (fun b hb => hcong b (List.mem_cons_of_mem a hb))]

theorem chainVals_congr {h1 h2 : Heap T} {c : List Nat}
    (hcong : ∀ a ∈ c, (lookupNode h1 a).map (·.elem) = (lookupNode h2 a).map (·.elem)) :
    chainVals h1 c = chainVals h2 c := by
  induction c with
  | nil => rfl
  | cons a rest ih =>
      have ha := hcong a (List.mem_cons_self a rest)
      simp only [chainVals, List.filterMap_cons] at ih ⊢
      rw [ha, ih (fun b hb => hcong b (List.mem_cons_of_mem a hb))]

theorem chainOk_mem_live {h : Heap T} {c : List Nat} :
    ∀ pr, chainOk h pr c = true → ∀ a ∈ c, ∃ nd, lookupNode h a = some nd := by
  induction c with
  | nil => intro pr _ a ha; cases ha
  | cons b rest ih =>
      intro pr hch a ha
      rcases hlb : lookupNode h b with _ | nd
      · simp [chainOk, hlb] at hch
      · simp only [chainOk, hlb, Bool.and_eq_true] at hch
        rcases List.mem_cons.mp ha with rfl | ha'
        · exact ⟨nd, hlb⟩
        · exact ih (some b) hch.2 a ha'

/-- Reading the node at any position of a valid chain: its `prev` is the
address before it (or the chain's entry `prev`) and its `next` the address
after it. -/
theorem chainOk_split {h : Heap T} {a : Nat} {ys : List Nat} :
    ∀ (xs : List Nat) (pr : Option Nat), chainOk h pr (xs ++ a :: ys) = true →
    ∃ nd, lookupNode h a = some nd ∧ nd.prev = xs.getLast?.or pr ∧ nd.next = ys.head? := by
  intro xs
  induction xs with
  | nil =>
      intro pr hch
      rcases hla : lookupNode h a with _ | nd
      · simp [chainOk, hla] at hch
      · simp only [List.nil_append, chainOk, hla, Bool.and_eq_true, beq_iff_eq] at hch
        exact ⟨nd, rfl, hch.1.1, hch.1.2⟩
  | cons x xs ih =>
      intro pr hch
      rcases hlx : lookupNode h x with _ | ndx
      · simp [chainOk, hlx] at hch
      · simp only [List.cons_append, chainOk, hlx, Bool.and_eq_true] at hch
        obtain ⟨nd, hla, hprev, hnext⟩ := ih (some x) hch.2
        refine ⟨nd, hla, ?_, hnext⟩
        rw [hprev]
        cases xs with
        | nil => rfl
        | cons y t =>
            rw [List.getLast?_cons_cons, List.getLast?_eq_getLast (y :: t) (by simp)]
            simp [Option.or]

/-!  Streamlined access to the well-formedness facts. -/

theorem wfB_iff_WfC (s : DList T) (c : List Nat) : wfB s c = true ↔ WfC s c := by
  constructor
  · intro hw
    simp only [wfB, Bool.and_eq_true, beq_iff_eq, decide_eq_true_eq, List.all_eq_true] at hw
    obtain ⟨⟨⟨⟨h1, h2⟩, h3⟩, h4⟩, h5⟩ := hw
    refine ⟨h1, h2, h3, h4, ?_⟩
    intro a nd hla
    have halt : a < s.heap.length := lookupNode_lt_length hla
    have h6 := h5 a (List.mem_range.mpr halt)
    simp only [hla, Option.isNone_some, Bool.false_or, decide_eq_true_eq] at h6
    exact h6
  · intro hw
    simp only [wfB, Bool.and_eq_true, beq_iff_eq, decide_eq_true_eq, List.all_eq_true]
    refine ⟨⟨⟨⟨hw.head_eq, hw.tail_eq⟩, hw.chain⟩, hw.nodup⟩, ?_⟩
    intro a _
    rcases hla : lookupNode s.heap a with _ | nd
    · simp [hla]
    · simp [hla, hw.lives a nd hla]

/-- Chain addresses are below the heap length. -/
theorem WfC.mem_lt {s : DList T} {c : List Nat} (hw : WfC s c) {a : Nat} (ha : a ∈ c) :
    a < s.heap.length := by
  obtain ⟨nd, hnd⟩ := chainOk_mem_live none hw.chain a ha
  exact lookupNode_lt_length hnd

theorem WfC.fresh_not_mem {s : DList T} {c : List Nat} (hw : WfC s c) :
    s.heap.length ∉ c := fun hmem => lt_irrefl _ (hw.mem_lt hmem)

/-!  Simulation of `push_front`: it conses a fresh address onto the chain. -/

theorem push_front_sim {s : DList T} {c : List Nat} (hw : WfC s c) (v : T) :
    WfC (s.push_front v) (s.heap.length :: c) ∧
      chainVals (s.push_front v).heap (s.heap.length :: c) = v :: chainVals s.heap c := by
  rcases hh : s.head with _ | oldHead
  · have hc : c = [] := by
      have := hw.head_eq; rw [hh] at this
      exact List.head?_eq_none_iff.mp this.symm
    subst hc
    have htl : s.tail = none := by rw [hw.tail_eq]; rfl
    simp only [DList.push_front, hh]
    have hlk := lookupNode_append_new s.heap
      { elem := v, next := none, prev := none } (T := T)
    constructor
    · refine ⟨rfl, rfl, ?_, by simp, ?_⟩
      · simp [chainOk, hlk]
      · intro a nd hla
        rw [hlk a] at hla
        by_cases han : a = s.heap.length
        · simp [han]
        · rw [if_neg han] at hla
          exact absurd (hw.lives a nd hla) (List.not_mem_nil a)
    · simp [chainVals, hlk]
  · obtain ⟨c', rfl⟩ : ∃ c', c = oldHead :: c' := by
      have hhe := hw.head_eq; rw [hh] at hhe
      cases c with
      | nil => simp at hhe
      | cons x t =>
          simp only [List.head?_cons] at hhe
          exact ⟨t, by rw [← Option.some_inj.mp hhe]⟩
    have hltOld : oldHead < s.heap.length := hw.mem_lt (List.mem_cons_self _ _)
    have hne : oldHead ≠ s.heap.length := Nat.ne_of_lt hltOld
    obtain ⟨ndo, hlo, hpo, hno⟩ := chainOk_split [] none hw.chain
    have hchain' : chainOk s.heap (some oldHead) c' = true := by
      have hch := hw.chain
      simp only [chainOk, hlo, Bool.and_eq_true] at hch
      exact hch.2
    have hpush : s.push_front v =
        { heap := modifyNode
            (modifyNode (s.heap ++ [some { elem := v, next := none, prev := none }]) oldHead
              (fun nd => { nd with prev := some s.heap.length }))
            s.heap.length (fun nd => { nd with next := some oldHead }),
          head := some s.heap.length, tail := s.tail } := by
      simp only [DList.push_front, hh]
    have hlk : ∀ b, lookupNode (s.push_front v).heap b =
        if b = s.heap.length then some { elem := v, next := some oldHead, prev := none }
        else if b = oldHead then some { ndo with prev := some s.heap.length }
        else lookupNode s.heap b := by
      intro b
      rw [hpush]
      by_cases hbn : b = s.heap.length
      · simp [lookupNode_modify, lookupNode_append_new, hbn, Ne.symm hne]
      · by_cases hbo : b = oldHead
        · simp [lookupNode_modify, lookupNode_append_new, hbn, hbo, hne, hlo]
        · simp [lookupNode_modify, lookupNode_append_new, hbn, hbo]
    have hfresh : s.heap.length ∉ oldHead :: c' := hw.fresh_not_mem
    have hcongr : chainOk (s.push_front v).heap (some oldHead) c' =
        chainOk s.heap (some oldHead) c' := by
      apply chainOk_congr
      intro b hb
      have hbn : b ≠ s.heap.length := fun hx => hfresh (hx ▸ List.mem_cons_of_mem _ hb)
      have hbo : b ≠ oldHead := fun hx => (List.nodup_cons.mp hw.nodup).1 (hx ▸ hb)
      rw [hlk b, if_neg hbn, if_neg hbo]
    have hcv : chainVals (s.push_front v).heap (oldHead :: c') =
        chainVals s.heap (oldHead :: c') := by
      apply chainVals_congr
      intro b hb
      have hbn : b ≠ s.heap.length := fun hx => hfresh (hx ▸ hb)
      rw [hlk b, if_neg hbn]
      by_cases hbo : b = oldHead
      · subst hbo; simp [hlo]
      · rw [if_neg hbo]
    constructor
    · refine ⟨?_, ?_, ?_, ?_, ?_⟩
      · rw [hpush]; rfl
      · rw [hpush, List.getLast?_cons_cons]; exact hw.tail_eq
      · show chainOk (s.push_front v).heap none (s.heap.length :: oldHead :: c') = true
        simp [chainOk, hlk s.heap.length, hlk oldHead, hne, hno, hcongr, hchain']
      · exact List.nodup_cons.mpr ⟨hfresh, hw.nodup⟩
      · intro a nd hla
        rw [hlk a] at hla
        by_cases han : a = s.heap.length
        · simp [han]
        · rw [if_neg han] at hla
          by_cases hao : a = oldHead
          · simp [hao]
          · rw [if_neg hao] at hla
            exact List.mem_cons_of_mem _ (hw.lives a nd hla)
    · have hstep : chainVals (s.push_front v).heap (s.heap.length :: oldHead :: c') =
          v :: chainVals (s.push_front v).heap (oldHead :: c') := by
        simp [chainVals, hlk s.heap.length]
      rw [hstep, hcv]

/-!  Simulation of `push_back`: it appends a fresh address to the chain. -/

/-- Extending a valid chain by a node appended at the back: the old last
node's `next` is redirected to the new node `n`, whose `prev` points back. -/
theorem chainOk_push_last {h2 h : Heap T} {n lt : Nat} {ndn : Node T}
    (hln : lookupNode h2 n = some ndn) (hpn : ndn.prev = some lt) (hnn : ndn.next = none) :
    ∀ (c : List Nat) (pr : Option Nat), chainOk h pr c = true →
    c.getLast? = some lt → c.Nodup →
    (∀ b ∈ c, b ≠ lt → lookupNode h2 b = lookupNode h b) →
    (∀ nd, lookupNode h lt = some nd → lookupNode h2 lt = some { nd with next := some n }) →
    chainOk h2 pr (c ++ [n]) = true := by
  intro c
  induction c with
  | nil => intro pr _ hlast; simp at hlast
  | cons a rest ih =>
      intro pr hch hlast hnd hsame hmod
      rcases hla : lookupNode h a with _ | nda
      · simp [chainOk, hla] at hch
      · simp only [chainOk, hla, Bool.and_eq_true, beq_iff_eq] at hch
        cases rest with
        | nil =>
            have halt : a = lt := by simpa using hlast
            subst halt
            have h2a := hmod nda hla
            simp [chainOk, h2a, hln, hch.1.1, hpn, hnn]
        | cons b t =>
            have hlast' : (b :: t).getLast? = some lt := by
              rwa [List.getLast?_cons_cons] at hlast
            have halt : a ≠ lt := fun hx =>
              (List.nodup_cons.mp hnd).1 (hx ▸ List.mem_of_mem_getLast? (by simp [hlast']))
            have h2a : lookupNode h2 a = some nda := by
              rw [hsame a (List.mem_cons_self _ _) halt, hla]
            simp only [List.cons_append, chainOk, h2a, Bool.and_eq_true, beq_iff_eq]
            refine ⟨⟨hch.1.1, ?_⟩, ?_⟩
            · rw [hch.1.2]; rfl
            · exact ih (some a) hch.2 hlast' (List.nodup_cons.mp hnd).2
                (fun x hx hxlt => hsame x (List.mem_cons_of_mem _ hx) hxlt) hmod

theorem push_back_sim {s : DList T} {c : List Nat} (hw : WfC s c) (v : T) :
    WfC (s.push_back v) (c ++ [s.heap.length]) ∧
      chainVals (s.push_back v).heap (c ++ [s.heap.length]) = chainVals s.heap c ++ [v] := by
  rcases hh : s.tail with _ | oldTail
  · have hc : c = [] := by
      have := hw.tail_eq; rw [hh] at this
      exact List.getLast?_eq_none_iff.mp this.symm
    subst hc
    simp only [DList.push_back, hh]
    have hlk := lookupNode_append_new s.heap
      { elem := v, next := none, prev := none } (T := T)
    constructor
    · refine ⟨rfl, rfl, ?_, by simp, ?_⟩
      · simp [chainOk, hlk]
      · intro a nd hla
        rw [hlk a] at hla
        by_cases han : a = s.heap.length
        · simp [han]
        · rw [if_neg han] at hla
          exact absurd (hw.lives a nd hla) (List.not_mem_nil a)
    · simp [chainVals, hlk]
  · obtain ⟨c0, rfl⟩ : ∃ c0, c = c0 ++ [oldTail] := by
      have hte := hw.tail_eq; rw [hh] at hte
      exact List.getLast?_eq_some_iff.mp hte.symm
    have hmem : oldTail ∈ c0 ++ [oldTail] := by simp
    have hltOld : oldTail < s.heap.length := hw.mem_lt hmem
    have hne : oldTail ≠ s.heap.length := Nat.ne_of_lt hltOld
    obtain ⟨ndo, hlo, hpo, hno⟩ := chainOk_split c0 none hw.chain
    have hpush : s.push_back v =
        { heap := modifyNode
            (modifyNode (s.heap ++ [some { elem := v, next := none, prev := none }]) oldTail
              (fun nd => { nd with next := some s.heap.length }))
            s.heap.length (fun nd => { nd with prev := some oldTail }),
          head := s.head, tail := some s.heap.length } := by
      simp only [DList.push_back, hh]
    have hlk : ∀ b, lookupNode (s.push_back v).heap b =
        if b = s.heap.length then some { elem := v, next := none, prev := some oldTail }
        else if b = oldTail then some { ndo with next := some s.heap.length }
        else lookupNode s.heap b := by
      intro b
      rw [hpush]
      by_cases hbn : b = s.heap.length
      · simp [lookupNode_modify, lookupNode_append_new, hbn, Ne.symm hne]
      · by_cases hbo : b = oldTail
        · simp [lookupNode_modify, lookupNode_append_new, hbn, hbo, hne, hlo]
        · simp [lookupNode_modify, lookupNode_append_new, hbn, hbo]
    have hfresh : s.heap.length ∉ c0 ++ [oldTail] := hw.fresh_not_mem
    constructor
    · refine ⟨?_, ?_, ?_, ?_, ?_⟩
      · rw [hpush]
        show s.head = ((c0 ++ [oldTail]) ++ [s.heap.length]).head?
        rw [List.head?_append_of_ne_nil _ (by simp)]
        exact hw.head_eq
      · rw [hpush]
        show some s.heap.length = ((c0 ++ [oldTail]) ++ [s.heap.length]).getLast?
        rw [List.getLast?_concat]
      · have hln : lookupNode (s.push_back v).heap s.heap.length =
            some { elem := v, next := none, prev := some oldTail } := by
          rw [hlk s.heap.length, if_pos rfl]
        apply chainOk_push_last hln rfl rfl (c0 ++ [oldTail]) none hw.chain
          (List.getLast?_concat _) hw.nodup
        · intro b hb hbo
          have hbn : b ≠ s.heap.length := fun hx => hfresh (hx ▸ hb)
          rw [hlk b, if_neg hbn, if_neg hbo]
        · intro nd hnd
          rw [hlo] at hnd
          injection hnd with hnd
          subst hnd
          rw [hlk oldTail, if_neg hne, if_pos rfl]
      · rw [List.nodup_append]
        exact ⟨hw.nodup, by simp, by intro x hx hx1; simp at hx1; exact hfresh (hx1 ▸ hx)⟩
      · intro a nd hla
        rw [hlk a] at hla
        by_cases han : a = s.heap.length
        · simp [han]
        · rw [if_neg han] at hla
          by_cases hao : a = oldTail
          · subst hao; exact List.mem_append_left _ hmem
          · rw [if_neg hao] at hla
            exact List.mem_append_left _ (hw.lives a nd hla)
    · rw [chainVals, List.filterMap_append, ← chainVals, ← chainVals]
      have hcv : chainVals (s.push_back v).heap (c0 ++ [oldTail]) =
          chainVals s.heap (c0 ++ [oldTail]) := by
        apply chainVals_congr
        intro b hb
        have hbn : b ≠ s.heap.length := fun hx => hfresh (hx ▸ hb)
        rw [hlk b, if_neg hbn]
        by_cases hbo : b = oldTail
        · subst hbo; simp [hlo]
        · rw [if_neg hbo]
      rw [hcv]
      congr 1
      simp [chainVals, hlk s.heap.length]

/-!  Simulation of the pops.  The central safety fact is that after the
detach phase no link of the structure designates the detached node, so the
`Rc::try_unwrap` fail-fast branch is never taken. -/

theorem refCount_eq_zero {s : DList T} {a : Nat}
    (hh : s.head ≠ some a) (ht : s.tail ≠ some a)
    (hn : ∀ b nd, lookupNode s.heap b = some nd → nd.next ≠ some a ∧ nd.prev ≠ some a) :
    refCount s a = 0 := by
  unfold refCount
  rw [if_neg hh, if_neg ht]
  have hsum : ((List.range s.heap.length).map (fun b =>
      match lookupNode s.heap b with
      | none => 0
      | some nd =>
          (if nd.next = some a then 1 else 0) + (if nd.prev = some a then 1 else 0))).sum = 0 := by
    apply List.sum_eq_zero
    intro x hx
    simp only [List.mem_map] at hx
    obtain ⟨b, _, rfl⟩ := hx
    rcases hlb : lookupNode s.heap b with _ | nd
    · rfl
    · have := hn b nd hlb
      simp [this.1, this.2]
  omega

theorem pop_front_none {s : DList T} (hh : s.head = none) :
    s.pop_front = some (none, s) := by
  simp [DList.pop_front, hh]

theorem pop_back_none {s : DList T} (ht : s.tail = none) :
    s.pop_back = some (none, s) := by
  simp [DList.pop_back, ht]

theorem pop_front_cons {s : DList T} {a : Nat} {c' : List Nat} (hw : WfC s (a :: c')) :
    ∃ nd s1, s.detach_front = some (a, nd, s1) ∧ refCount s1 a = 0 ∧
      s.pop_front = some (some nd.elem, { s1 with heap := freeAt s1.heap a }) ∧
      WfC { s1 with heap := freeAt s1.heap a } c' ∧
      chainVals s.heap (a :: c') = nd.elem :: chainVals (freeAt s1.heap a) c' := by
  have hh : s.head = some a := by rw [hw.head_eq]; rfl
  obtain ⟨nd, hla, hprev, hnext⟩ := chainOk_split [] none hw.chain
  have hprev' : nd.prev = none := hprev
  have hamem : a ∈ a :: c' := List.mem_cons_self _ _
  cases c' with
  | nil =>
      have hnext' : nd.next = none := hnext
      have htl : s.tail = some a := by rw [hw.tail_eq]; rfl
      have hdetach : s.detach_front =
          some (a, nd, { heap := s.heap, head := none, tail := none }) := by
        simp [DList.detach_front, hh, hla, hnext']
      have hrc : refCount { heap := s.heap, head := none, tail := none } a = 0 := by
        refine refCount_eq_zero (by simp) (by simp) ?_
        intro b ndb hlb
        have hb : b = a := by
          have := hw.lives b ndb hlb; simpa using this
        subst hb
        rw [hla] at hlb
        injection hlb with hlb
        subst hlb
        simp [hnext', hprev']
      refine ⟨nd, _, hdetach, hrc, ?_, ?_, ?_⟩
      · simp [DList.pop_front, hh, hdetach, hrc]
      · refine ⟨rfl, rfl, rfl, by simp, ?_⟩
        intro b ndb hlb
        rw [lookupNode_freeAt] at hlb
        by_cases hb : b = a
        · rw [if_pos hb] at hlb; cases hlb
        · rw [if_neg hb] at hlb
          have := hw.lives b ndb hlb
          simp [hb] at this
      · simp [chainVals, hla]
  | cons nxt c'' =>
      have hnext' : nd.next = some nxt := by rw [hnext]; rfl
      have hnodup := hw.nodup
      have hanxt : a ≠ nxt := by
        intro hx
        exact (List.nodup_cons.mp hnodup).1 (hx ▸ List.mem_cons_self nxt c'')
      have hanotin : a ∉ nxt :: c'' := (List.nodup_cons.mp hnodup).1
      obtain ⟨ndn, hlnxt, hpnxt, hnnxt⟩ := chainOk_split [a] none hw.chain
      have hpnxt' : ndn.prev = some a := hpnxt
      have hchain2 : chainOk s.heap (some nxt) c'' = true := by
        have hch := hw.chain
        simp only [chainOk, hla, hlnxt, Bool.and_eq_true] at hch
        exact hch.2.2
      have hdetach : s.detach_front = some (a, nd,
          { heap := modifyNode (modifyNode s.heap a (fun m => { m with next := none })) nxt
              (fun m => { m with prev := none }),
            head := some nxt, tail := s.tail }) := by
        simp [DList.detach_front, hh, hla, hnext']
      have hlk2 : ∀ b, lookupNode (modifyNode (modifyNode s.heap a
            (fun m => { m with next := none })) nxt (fun m => { m with prev := none })) b =
          if b = nxt then some { ndn with prev := none }
          else if b = a then some { nd with next := none }
          else lookupNode s.heap b := by
        intro b
        by_cases hbn : b = nxt
        · simp [lookupNode_modify, hbn, Ne.symm hanxt, hlnxt]
        · by_cases hba : b = a
          · simp [lookupNode_modify, hbn, hba, hanxt, hla]
          · simp [lookupNode_modify, hbn, hba]
      have htl : s.tail ≠ some a := by
        rw [hw.tail_eq, List.getLast?_cons_cons]
        intro hx
        have := List.mem_of_mem_getLast? (l := nxt :: c'') (a := a) (by simp [← hx])
        exact hanotin this
      have hrc : refCount
          { heap := modifyNode (modifyNode s.heap a (fun m => { m with next := none })) nxt
              (fun m => { m with prev := none }),
            head := some nxt, tail := s.tail } a = 0 := by
        refine refCount_eq_zero (by simp [Ne.symm hanxt]) (by exact htl) ?_
        intro b ndb hlb
        rw [hlk2 b] at hlb
        by_cases hbn : b = nxt
        · rw [if_pos hbn] at hlb
          injection hlb with hlb
          subst hlb
          constructor
          · show ndn.next ≠ some a
            rw [hnnxt]
            intro hx
            have : a ∈ c'' := List.mem_of_mem_head? (by simp [hx])
            exact hanotin (List.mem_cons_of_mem _ this)
          · simp
        · rw [if_neg hbn] at hlb
          by_cases hba : b = a
          · rw [if_pos hba] at hlb
            injection hlb with hlb
            subst hlb
            simp [hprev']
          · rw [if_neg hba] at hlb
            have hbmem : b ∈ c'' := by
              have := hw.lives b ndb hlb
              simp [hba, hbn] at this
              tauto
            obtain ⟨xs, ys, rfl⟩ := List.append_of_mem hbmem
            have hsplit : a :: nxt :: xs ++ b :: ys = (a :: nxt :: xs) ++ b :: ys := rfl
            obtain ⟨ndb2, hlb2, hprevb, hnextb⟩ :=
              chainOk_split (a :: nxt :: xs) none (by rw [← hsplit]; exact hw.chain)
            rw [hlb2] at hlb
            injection hlb with hlb
            subst hlb
            constructor
            · rw [hnextb]
              intro hx
              have hys : a ∈ ys := List.mem_of_mem_head? (by simp [← hx])
              exact hanotin (List.mem_cons_of_mem _
                (List.mem_append_right _ (List.mem_cons_of_mem _ hys)))
            · rw [hprevb]
              rw [show (a :: nxt :: xs).getLast?.or none =
                  (nxt :: xs).getLast?.or none by rw [List.getLast?_cons_cons]]
              intro hx
              have : a ∈ (nxt :: xs).getLast? := by
                rcases hgl : (nxt :: xs).getLast? with _ | z
                · simp [hgl] at hx
                · simp [hgl] at hx ⊢; simp [hx]
              have hmem2 := List.mem_of_mem_getLast? this
              rcases List.mem_cons.mp hmem2 with rfl | hxs
              · exact hanxt rfl
              · exact hanotin (List.mem_cons_of_mem _ (List.mem_append_left _ hxs))
      refine ⟨nd, _, hdetach, hrc, ?_, ?_, ?_⟩
      · simp [DList.pop_front, hh, hdetach, hrc]
      · refine ⟨rfl, ?_, ?_, (List.nodup_cons.mp hnodup).2, ?_⟩
        · show s.tail = (nxt :: c'').getLast?
          rw [hw.tail_eq, List.getLast?_cons_cons]
        · show chainOk (freeAt (modifyNode (modifyNode s.heap a _) nxt _) a) none (nxt :: c'') = true
          have hlkf : ∀ b, b ≠ a → lookupNode (freeAt (modifyNode (modifyNode s.heap a
              (fun m => { m with next := none })) nxt (fun m => { m with prev := none })) a) b =
              if b = nxt then some { ndn with prev := none } else lookupNode s.heap b := by
            intro b hba
            rw [lookupNode_freeAt, if_neg hba, hlk2 b]
            by_cases hbn : b = nxt
            · simp [hbn]
            · simp [hbn, hba]
          have hlknxt : lookupNode (freeAt (modifyNode (modifyNode s.heap a
              (fun m => { m with next := none })) nxt (fun m => { m with prev := none })) a) nxt =
              some { ndn with prev := none } := by
            rw [hlkf nxt (Ne.symm hanxt), if_pos rfl]
          have hcg : chainOk (freeAt (modifyNode (modifyNode s.heap a
              (fun m => { m with next := none })) nxt (fun m => { m with prev := none })) a)
              (some nxt) c'' = chainOk s.heap (some nxt) c'' := by
            apply chainOk_congr
            intro b hb
            have hba : b ≠ a := fun hx => hanotin (hx ▸ List.mem_cons_of_mem _ hb)
            have hbn : b ≠ nxt := fun hx =>
              (List.nodup_cons.mp (List.nodup_cons.mp hnodup).2).1 (hx ▸ hb)
            rw [hlkf b hba, if_neg hbn]
          simp [chainOk, hlknxt, hnnxt, hcg, hchain2]
        · intro b ndb hlb
          rw [lookupNode_freeAt] at hlb
          by_cases hba : b = a
          · rw [if_pos hba] at hlb; cases hlb
          · rw [if_neg hba] at hlb
            rw [hlk2 b] at hlb
            by_cases hbn : b = nxt
            · rw [hbn]; exact List.mem_cons_self _ _
            · rw [if_neg hbn, if_neg hba] at hlb
              have := hw.lives b ndb hlb
              simp [hba] at this
              tauto
      · show chainVals s.heap (a :: nxt :: c'') =
          nd.elem :: chainVals (freeAt (modifyNode (modifyNode s.heap a _) nxt _) a) (nxt :: c'')
        have hstep : chainVals s.heap (a :: nxt :: c'') =
            nd.elem :: chainVals s.heap (nxt :: c'') := by
          simp [chainVals, hla]
        rw [hstep]
        congr 1
        apply chainVals_congr
        intro b hb
        have hba : b ≠ a := fun hx => hanotin (hx ▸ hb)
        rw [lookupNode_freeAt, if_neg hba, hlk2 b]
        by_cases hbn : b = nxt
        · subst hbn; simp [hlnxt]
        · simp [hbn, hba]

/-- Removing the last node of a valid chain: the preceding node's `next` is
cleared and the rest of the chain is untouched. -/
theorem chainOk_drop_last {h2 h : Heap T} {lt tl : Nat} :
    ∀ (c : List Nat) (pr : Option Nat), chainOk h pr (c ++ [tl]) = true →
    c.getLast? = some lt → (c ++ [tl]).Nodup →
    (∀ b ∈ c, b ≠ lt → lookupNode h2 b = lookupNode h b) →
    (∀ nd, lookupNode h lt = some nd → lookupNode h2 lt = some { nd with next := none }) →
    chainOk h2 pr c = true := by
  intro c
  induction c with
  | nil => intro pr _ hlast _ _ _; simp at hlast
  | cons x rest ih =>
      intro pr hch hlast hnd hsame hmod
      rcases hlx : lookupNode h x with _ | ndx
      · rw [List.cons_append] at hch
        simp [chainOk, hlx] at hch
      · rw [List.cons_append] at hch
        simp only [chainOk, hlx, Bool.and_eq_true, beq_iff_eq] at hch
        cases rest with
        | nil =>
            have hxlt : x = lt := by simpa using hlast
            subst hxlt
            have h2x := hmod ndx hlx
            simp [chainOk, h2x, hch.1.1]
        | cons y t =>
            have hlast' : (y :: t).getLast? = some lt := by
              rwa [List.getLast?_cons_cons] at hlast
            have hxlt : x ≠ lt := fun hx =>
              (List.nodup_cons.mp hnd).1 (hx ▸ List.mem_append_left _
                (List.mem_of_mem_getLast? (by simp [hlast'])))
            have h2x : lookupNode h2 x = some ndx := by
              rw [hsame x (List.mem_cons_self _ _) hxlt, hlx]
            simp only [chainOk, h2x, Bool.and_eq_true, beq_iff_eq]
            refine ⟨⟨hch.1.1, ?_⟩, ?_⟩
            · rw [hch.1.2]; rfl
            · exact ih (some x) hch.2 hlast' (List.nodup_cons.mp hnd).2
                (fun b hb hblt => hsame b (List.mem_cons_of_mem _ hb) hblt) hmod

theorem pop_back_cons {s : DList T} {a : Nat} {c0 : List Nat} (hw : WfC s (c0 ++ [a])) :
    ∃ nd s1, s.detach_back = some (a, nd, s1) ∧ refCount s1 a = 0 ∧
      s.pop_back = some (some nd.elem, { s1 with heap := freeAt s1.heap a }) ∧
      WfC { s1 with heap := freeAt s1.heap a } c0 ∧
      chainVals s.heap (c0 ++ [a]) = chainVals (freeAt s1.heap a) c0 ++ [nd.elem] := by
  have ht : s.tail = some a := by rw [hw.tail_eq, List.getLast?_concat]
  obtain ⟨nd, hla, hprev, hnext⟩ := chainOk_split c0 none hw.chain
  have hnext' : nd.next = none := hnext
  rcases c0.eq_nil_or_concat with rfl | ⟨c1, lt, hc0⟩
  · have hprev' : nd.prev = none := hprev
    have hhd : s.head = some a := by rw [hw.head_eq]; rfl
    have hdetach : s.detach_back =
        some (a, nd, { heap := s.heap, head := none, tail := none }) := by
      simp [DList.detach_back, ht, hla, hprev']
    have hrc : refCount { heap := s.heap, head := none, tail := none } a = 0 := by
      refine refCount_eq_zero (by simp) (by simp) ?_
      intro b ndb hlb
      have hb : b = a := by
        have := hw.lives b ndb hlb; simpa using this
      subst hb
      rw [hla] at hlb
      injection hlb with hlb
      subst hlb
      simp [hnext', hprev']
    refine ⟨nd, _, hdetach, hrc, ?_, ?_, ?_⟩
    · simp [DList.pop_back, ht, hdetach, hrc]
    · refine ⟨rfl, rfl, rfl, by simp, ?_⟩
      intro b ndb hlb
      rw [lookupNode_freeAt] at hlb
      by_cases hb : b = a
      · rw [if_pos hb] at hlb; cases hlb
      · rw [if_neg hb] at hlb
        have := hw.lives b ndb hlb
        simp [hb] at this
    · simp [chainVals, hla]
  · rw [List.concat_eq_append] at hc0
    subst hc0
    have hprev' : nd.prev = some lt := by
      rw [hprev, List.getLast?_concat]; rfl
    have hnodup := hw.nodup
    have hanotin : a ∉ c1 ++ [lt] := by
      rw [List.nodup_append] at hnodup
      intro hx
      exact hnodup.2.2 hx (List.mem_cons_self _ _)
    have halt : lt ≠ a := fun hx => hanotin (hx ▸ List.mem_append_right _ (by simp))
    have hltmem : lt ∈ c1 ++ [lt] := List.mem_append_right _ (by simp)
    have hch3 : chainOk s.heap none (c1 ++ lt :: [a]) = true := by
      simpa using hw.chain
    obtain ⟨ndl, hllt, hpl, hnl⟩ := chainOk_split c1 none hch3
    have hnl' : ndl.next = some a := hnl
    have hdetach : s.detach_back = some (a, nd,
        { heap := modifyNode (modifyNode s.heap a (fun m => { m with prev := none })) lt
            (fun m => { m with next := none }),
          head := s.head, tail := some lt }) := by
      simp [DList.detach_back, ht, hla, hprev']
    have hlk2 : ∀ b, lookupNode (modifyNode (modifyNode s.heap a
          (fun m => { m with prev := none })) lt (fun m => { m with next := none })) b =
        if b = lt then some { ndl with next := none }
        else if b = a then some { nd with prev := none }
        else lookupNode s.heap b := by
      intro b
      by_cases hbl : b = lt
      · simp [lookupNode_modify, hbl, halt, hllt]
      · by_cases hba : b = a
        · simp [lookupNode_modify, hbl, hba, Ne.symm halt, hla]
        · simp [lookupNode_modify, hbl, hba]
    have hhd : s.head ≠ some a := by
      rw [hw.head_eq, List.head?_append_of_ne_nil _ (by simp)]
      intro hx
      exact hanotin (List.mem_of_mem_head? (by simp [← hx]))
    have hrc : refCount
        { heap := modifyNode (modifyNode s.heap a (fun m => { m with prev := none })) lt
            (fun m => { m with next := none }),
          head := s.head, tail := some lt } a = 0 := by
      refine refCount_eq_zero (by exact hhd) (by simp [halt]) ?_
      intro b ndb hlb
      rw [hlk2 b] at hlb
      by_cases hbl : b = lt
      · rw [if_pos hbl] at hlb
        injection hlb with hlb
        subst hlb
        refine ⟨by simp, ?_⟩
        show ndl.prev ≠ some a
        rw [hpl]
        intro hx
        have : a ∈ c1.getLast? := by
          rcases hgl : c1.getLast? with _ | z
          · simp [hgl] at hx
          · simp [hgl] at hx ⊢; simp [hx]
        exact hanotin (List.mem_append_left _ (List.mem_of_mem_getLast? this))
      · rw [if_neg hbl] at hlb
        by_cases hba : b = a
        · rw [if_pos hba] at hlb
          injection hlb with hlb
          subst hlb
          simp [hnext']
        · rw [if_neg hba] at hlb
          have hbmem : b ∈ c1 := by
            have hin := hw.lives b ndb hlb
            rcases List.mem_append.mp hin with hin1 | hin2
            · rcases List.mem_append.mp hin1 with h1 | h2
              · exact h1
              · simp at h2; exact absurd h2 hbl
            · simp at hin2; exact absurd hin2 hba
          obtain ⟨xs, ys, rfl⟩ := List.append_of_mem hbmem
          have hsplit : ((xs ++ b :: ys) ++ [lt]) ++ [a] = xs ++ b :: (ys ++ [lt] ++ [a]) := by
            simp
          obtain ⟨ndb2, hlb2, hprevb, hnextb⟩ :=
            chainOk_split xs none (by rw [← hsplit]; exact hw.chain)
          rw [hlb2] at hlb
          injection hlb with hlb
          subst hlb
          constructor
          · rw [hnextb]
            rcases ys with _ | ⟨y, t⟩
            · simp [halt]
            · simp only [List.cons_append, List.head?_cons]
              intro hx
              injection hx with hy
              subst hy
              exact hanotin (List.mem_append_left _ (List.mem_append_right _
                (List.mem_cons_of_mem _ (List.mem_cons_self _ _))))
          · rw [hprevb]
            intro hx
            have : a ∈ xs.getLast? := by
              rcases hgl : xs.getLast? with _ | z
              · simp [hgl] at hx
              · simp [hgl] at hx ⊢; simp [hx]
            have hmem2 := List.mem_of_mem_getLast? this
            exact hanotin (List.mem_append_left _ (List.mem_append_left _ hmem2))
    refine ⟨nd, _, hdetach, hrc, ?_, ?_, ?_⟩
    · simp [DList.pop_back, ht, hdetach, hrc]
    · refine ⟨?_, ?_, ?_, ?_, ?_⟩
      · show s.head = (c1 ++ [lt]).head?
        rw [hw.head_eq, List.head?_append_of_ne_nil _ (by simp)]
      · show some lt = (c1 ++ [lt]).getLast?
        rw [List.getLast?_concat]
      · show chainOk (freeAt (modifyNode (modifyNode s.heap a _) lt _) a) none (c1 ++ [lt]) = true
        refine chainOk_drop_last (h := s.heap) (c1 ++ [lt]) none ?_ (List.getLast?_concat _)
          hw.nodup ?_ ?_
        · exact hw.chain
        · intro b hb hblt
          have hba : b ≠ a := fun hx => hanotin (hx ▸ hb)
          rw [lookupNode_freeAt, if_neg hba, hlk2 b, if_neg hblt, if_neg hba]
        · intro nd2 hnd2
          rw [hllt] at hnd2
          injection hnd2 with hnd2
          subst hnd2
          rw [lookupNode_freeAt, if_neg halt, hlk2 lt, if_pos rfl]
      · rw [List.nodup_append] at hnodup
        exact hnodup.1
      · intro b ndb hlb
        rw [lookupNode_freeAt] at hlb
        by_cases hba : b = a
        · rw [if_pos hba] at hlb; cases hlb
        · rw [if_neg hba] at hlb
          rw [hlk2 b] at hlb
          by_cases hbl : b = lt
          · rw [hbl]; exact List.mem_append_right _ (by simp)
          · rw [if_neg hbl, if_neg hba] at hlb
            have hin := hw.lives b ndb hlb
            rcases List.mem_append.mp hin with hin1 | hin2
            · exact hin1
            · simp at hin2; exact absurd hin2 hba
    · rw [chainVals, List.filterMap_append, ← chainVals, ← chainVals]
      have hstep : chainVals s.heap [a] = [nd.elem] := by simp [chainVals, hla]
      rw [hstep]
      congr 1
      apply chainVals_congr
      intro b hb
      have hba : b ≠ a := fun hx => hanotin (hx ▸ hb)
      rw [lookupNode_freeAt, if_neg hba, hlk2 b]
      by_cases hbl : b = lt
      · subst hbl; simp [hllt]
      · simp [hbl, hba]

theorem WfC_new : WfC (DList.new : DList T) [] := by
  refine ⟨rfl, rfl, rfl, List.nodup_nil, ?_⟩
  intro a nd hla
  simp [lookupNode, DList.new] at hla

theorem applyOp_wf {s : DList T} {c : List Nat} (hw : WfC s c) (op : Op T) :
    ∃ s' c', applyOp op s = some s' ∧ WfC s' c' := by
  cases op with
  | push_front v => exact ⟨_, _, rfl, (push_front_sim hw v).1⟩
  | push_back v => exact ⟨_, _, rfl, (push_back_sim hw v).1⟩
  | pop_front =>
      cases c with
      | nil =>
          have hh : s.head = none := by rw [hw.head_eq]; rfl
          exact ⟨s, [], by simp [applyOp, pop_front_none hh], hw⟩
      | cons a c' =>
          obtain ⟨nd, s1, _, _, hpop, hwf, _⟩ := pop_front_cons hw
          exact ⟨_, c', by simp [applyOp, hpop], hwf⟩
  | pop_back =>
      rcases c.eq_nil_or_concat with rfl | ⟨c0, a, hc⟩
      · have ht : s.tail = none := by rw [hw.tail_eq]; rfl
        exact ⟨s, [], by simp [applyOp, pop_back_none ht], hw⟩
      · rw [List.concat_eq_append] at hc
        subst hc
        obtain ⟨nd, s1, _, _, hpop, hwf, _⟩ := pop_back_cons hw
        exact ⟨_, c0, by simp [applyOp, hpop], hwf⟩

theorem runOps_wf {ops : List (Op T)} : ∀ {s : DList T} {c : List Nat}, WfC s c →
    ∃ s' c', runOps ops s = some s' ∧ WfC s' c' := by
  induction ops with
  | nil => intro s c hw; exact ⟨s, c, rfl, hw⟩
  | cons op ops ih =>
      intro s c hw
      obtain ⟨s1, c1, hap, hw1⟩ := applyOp_wf hw op
      obtain ⟨s', c', hrun, hw'⟩ := ih hw1
      exact ⟨s', c', by simp [runOps, hap, hrun], hw'⟩

/-!  The structural invariants, derived from well-formedness. -/

theorem WfC.head_none_iff_tail_none {s : DList T} {c : List Nat} (hw : WfC s c) :
    s.head = none ↔ s.tail = none := by
  rw [hw.head_eq, hw.tail_eq, List.head?_eq_none_iff, List.getLast?_eq_none_iff]

theorem lookup_unique {h : Heap T} {a : Nat} {nd nd2 : Node T}
    (h1 : lookupNode h a = some nd) (h2 : lookupNode h a = some nd2) : nd = nd2 := by
  rw [h1] at h2; injection h2

theorem WfC.head_prev_none {s : DList T} {c : List Nat} (hw : WfC s c) {a : Nat} {nd : Node T}
    (hh : s.head = some a) (hl : lookupNode s.heap a = some nd) : nd.prev = none := by
  have hce := hw.head_eq; rw [hh] at hce
  cases c with
  | nil => simp at hce
  | cons x t =>
      simp only [List.head?_cons] at hce
      have hxa : x = a := Option.some.inj hce.symm
      obtain ⟨nd0, hl0, hp0, _⟩ := chainOk_split [] none hw.chain
      have hl0' : lookupNode s.heap a = some nd0 := hxa ▸ hl0
      rw [lookup_unique hl hl0']
      exact hp0

theorem WfC.tail_next_none {s : DList T} {c : List Nat} (hw : WfC s c) {a : Nat} {nd : Node T}
    (ht : s.tail = some a) (hl : lookupNode s.heap a = some nd) : nd.next = none := by
  have hce := hw.tail_eq; rw [ht] at hce
  obtain ⟨c0, rfl⟩ := List.getLast?_eq_some_iff.mp hce.symm
  obtain ⟨nd0, hl0, _, hn0⟩ := chainOk_split c0 none hw.chain
  rw [lookup_unique hl hl0]
  exact hn0

theorem WfC.mutual_inverse {s : DList T} {c : List Nat} (hw : WfC s c)
    {a b : Nat} {na nb : Node T}
    (hla : lookupNode s.heap a = some na) (hlb : lookupNode s.heap b = some nb) :
    na.next = some b ↔ nb.prev = some a := by
  constructor
  · intro hnext
    obtain ⟨xs, ys, rfl⟩ := List.append_of_mem (hw.lives a na hla)
    obtain ⟨na0, hla0, _, hn0⟩ := chainOk_split xs none hw.chain
    rw [lookup_unique hla hla0, hn0] at hnext
    cases ys with
    | nil => simp at hnext
    | cons y ys' =>
        simp only [List.head?_cons] at hnext
        have hyb : y = b := Option.some.inj hnext
        have hsplit : xs ++ a :: y :: ys' = (xs ++ [a]) ++ y :: ys' := by simp
        obtain ⟨nb0, hlb0, hp0, _⟩ :=
          chainOk_split (xs ++ [a]) none (by rw [← hsplit]; exact hw.chain)
        have hlb0' : lookupNode s.heap b = some nb0 := hyb ▸ hlb0
        rw [lookup_unique hlb hlb0', hp0, List.getLast?_concat]
        rfl
  · intro hprev
    obtain ⟨xs, ys, rfl⟩ := List.append_of_mem (hw.lives b nb hlb)
    obtain ⟨nb0, hlb0, hp0, _⟩ := chainOk_split xs none hw.chain
    rw [lookup_unique hlb hlb0, hp0] at hprev
    rcases hgl : xs.getLast? with _ | z
    · rw [hgl] at hprev; simp [Option.or] at hprev
    · rw [hgl] at hprev
      simp only [Option.or] at hprev
      have hza : z = a := Option.some.inj hprev
      obtain ⟨xs', hxs⟩ := List.getLast?_eq_some_iff.mp hgl
      have hch2 : chainOk s.heap none (xs' ++ z :: b :: ys) = true := by
        have : xs ++ b :: ys = xs' ++ z :: b :: ys := by rw [hxs]; simp
        rw [← this]
        exact hw.chain
      obtain ⟨na0, hla0, _, hn0⟩ := chainOk_split xs' none hch2
      have hla0' : lookupNode s.heap a = some na0 := hza ▸ hla0
      rw [lookup_unique hla hla0', hn0]
      rfl

theorem frontYields_none_cons (d : Bool) (outs : List (Bool × Option T)) :
    frontYields ((d, none) :: outs) = frontYields outs := by
  cases d <;> simp [frontYields]

theorem backYields_none_cons (d : Bool) (outs : List (Bool × Option T)) :
    backYields ((d, none) :: outs) = backYields outs := by
  cases d <;> simp [backYields]

theorem frontYields_nones {outs : List (Bool × Option T)}
    (h : ∀ p ∈ outs, p.2 = none) : frontYields outs = [] := by
  induction outs with
  | nil => rfl
  | cons p t ih =>
      have hp := h p (List.mem_cons_self _ _)
      rcases p with ⟨d, r⟩
      simp only at hp
      subst hp
      rw [frontYields_none_cons]
      exact ih fun q hq => h q (List.mem_cons_of_mem _ hq)

theorem backYields_nones {outs : List (Bool × Option T)}
    (h : ∀ p ∈ outs, p.2 = none) : backYields outs = [] := by
  induction outs with
  | nil => rfl
  | cons p t ih =>
      have hp := h p (List.mem_cons_self _ _)
      rcases p with ⟨d, r⟩
      simp only at hp
      subst hp
      rw [backYields_none_cons]
      exact ih fun q hq => h q (List.mem_cons_of_mem _ hq)

theorem monotoneNone_of_all_none {l : List (Option T)} (h : ∀ x ∈ l, x = none) :
    monotoneNone l = true := by
  unfold monotoneNone
  rw [List.all_eq_true]
  intro x hx
  have : x ∈ l := (List.dropWhile_sublist Option.isSome).mem hx
  rw [h x this]
  rfl

theorem monotoneNone_some_cons (v : T) (l : List (Option T)) :
    monotoneNone (some v :: l) = monotoneNone l := by
  simp [monotoneNone, List.dropWhile_cons]

theorem runIter_empty {s : DList T} (hh : s.head = none) (ht : s.tail = none) :
    ∀ ds : List Bool, runIter ds ⟨s⟩ = some (ds.map (fun d => (d, none)), ⟨s⟩) := by
  intro ds
  induction ds with
  | nil => rfl
  | cons d ds ih =>
      cases d <;>
        simp [runIter, IntoIter.next, IntoIter.next_back, pop_front_none hh,
          pop_back_none ht, ih]

/-- Running any interleaving of `next`/`next_back` on a well-formed deque
never panics, keeps it well formed, splits the original contents into the
forward yields, the remaining contents and the reversed backward yields, and
produces absent results only after the deque is exhausted. -/
theorem runIter_sim (ds : List Bool) : ∀ {s : DList T} {c : List Nat}, WfC s c →
    ∃ outs s' c', runIter ds ⟨s⟩ = some (outs, ⟨s'⟩) ∧ WfC s' c' ∧
      frontYields outs ++ chainVals s'.heap c' ++ (backYields outs).reverse =
        chainVals s.heap c ∧
      monotoneNone (outs.map Prod.snd) = true := by
  induction ds with
  | nil =>
      intro s c hw
      exact ⟨[], s, c, rfl, hw, by simp [frontYields, backYields], rfl⟩
  | cons d ds ih =>
      intro s c hw
      have hempty : c = [] →
          ∃ outs s' c', runIter (d :: ds) ⟨s⟩ = some (outs, ⟨s'⟩) ∧ WfC s' c' ∧
            frontYields outs ++ chainVals s'.heap c' ++ (backYields outs).reverse =
              chainVals s.heap c ∧
            monotoneNone (outs.map Prod.snd) = true := by
        rintro rfl
        have hh : s.head = none := by rw [hw.head_eq]; rfl
        have ht : s.tail = none := by rw [hw.tail_eq]; rfl
        refine ⟨(d :: ds).map (fun d => (d, none)), s, [], ?_, hw, ?_, ?_⟩
        · exact runIter_empty hh ht (d :: ds)
        · rw [frontYields_nones (by simp), backYields_nones (by simp)]
          simp [chainVals]
        · apply monotoneNone_of_all_none
          intro x hx
          simp only [List.map_map, List.mem_map] at hx
          obtain ⟨q, _, rfl⟩ := hx
          rfl
      cases d
      · rcases c.eq_nil_or_concat with rfl | ⟨c0, a, hc⟩
        · exact hempty rfl
        · rw [List.concat_eq_append] at hc
          subst hc
          obtain ⟨nd, s1, _, _, hpop, hwf, hvals⟩ := pop_back_cons hw
          obtain ⟨outs', s', c', hrun, hw', heq, hmono⟩ := ih hwf
          refine ⟨(false, some nd.elem) :: outs', s', c', ?_, hw', ?_, ?_⟩
          · simp [runIter, IntoIter.next_back, hpop, hrun]
          · show frontYields ((false, some nd.elem) :: outs') ++ chainVals s'.heap c' ++
              (backYields ((false, some nd.elem) :: outs')).reverse = chainVals s.heap (c0 ++ [a])
            have h1 : frontYields ((false, some nd.elem) :: outs') = frontYields outs' := by
              simp [frontYields]
            have h2 : backYields ((false, some nd.elem) :: outs') =
                nd.elem :: backYields outs' := by
              simp [backYields]
            rw [h1, h2, hvals, List.reverse_cons, ← heq]
            simp
          · show monotoneNone (((false, some nd.elem) :: outs').map Prod.snd) = true
            simp only [List.map_cons]
            rw [monotoneNone_some_cons]
            exact hmono
      · cases c with
        | nil => exact hempty rfl
        | cons a c'' =>
            obtain ⟨nd, s1, _, _, hpop, hwf, hvals⟩ := pop_front_cons hw
            obtain ⟨outs', s', c', hrun, hw', heq, hmono⟩ := ih hwf
            refine ⟨(true, some nd.elem) :: outs', s', c', ?_, hw', ?_, ?_⟩
            · simp [runIter, IntoIter.next, hpop, hrun]
            · show frontYields ((true, some nd.elem) :: outs') ++ chainVals s'.heap c' ++
                (backYields ((true, some nd.elem) :: outs')).reverse =
                chainVals s.heap (a :: c'')
              have h1 : frontYields ((true, some nd.elem) :: outs') =
                  nd.elem :: frontYields outs' := by
                simp [frontYields]
              have h2 : backYields ((true, some nd.elem) :: outs') = backYields outs' := by
                simp [backYields]
              rw [h1, h2, hvals, ← heq]
              simp
            · show monotoneNone (((true, some nd.elem) :: outs').map Prod.snd) = true
              simp only [List.map_cons]
              rw [monotoneNone_some_cons]
              exact hmono

/-!  The claims. -/

/-- C1 (refuted by the code): `List<T>` implements no `Drop`, so destroying
a deque relies precisely on the automatic recursive release the claim rules
out.  For the two-element deque built by `push_front 1; push_front 2`,
dropping the `head` and `tail` links leaves both nodes with ownership count
1 — still allocated, never reaching zero: the claimed pop-like teardown walk
does not happen and both nodes leak. -/
theorem drop_without_teardown_leaks :
    (dropList ((DList.new.push_front (1 : Nat)).push_front 2)).counts = [1, 1] ∧
    ((dropList ((DList.new.push_front (1 : Nat)).push_front 2)).heap.all
      Option.isSome) = true := by
  exact ⟨rfl, rfl⟩

/-- C2: every sequence of `push_front`/`push_back`/`pop_front`/`pop_back`
operations run from `new()` succeeds, and after it: the deque holds no node
iff both the head and the tail links are absent; the head node's `prev`
link and the tail node's `next` link are absent; and for adjacent nodes the
`next`/`prev` links are mutually inverse. -/
theorem ops_preserve_invariants (T : Type) (ops : List (Op T)) :
    ∃ s : DList T, runOps ops DList.new = some s ∧
      (s.head = none ↔ s.tail = none) ∧
      ((∀ a nd, lookupNode s.heap a = some nd → False) ↔
        (s.head = none ∧ s.tail = none)) ∧
      (∀ a nd, s.head = some a → lookupNode s.heap a = some nd → nd.prev = none) ∧
      (∀ a nd, s.tail = some a → lookupNode s.heap a = some nd → nd.next = none) ∧
      (∀ a b na nb, lookupNode s.heap a = some na → lookupNode s.heap b = some nb →
        (na.next = some b ↔ nb.prev = some a)) := by
  obtain ⟨s, c, hrun, hw⟩ := @runOps_wf T ops DList.new [] WfC_new
  have hempt : (∀ a nd, lookupNode s.heap a = some nd → False) ↔
      (s.head = none ∧ s.tail = none) := by
    cases c with
    | nil =>
        constructor
        · intro _
          exact ⟨by rw [hw.head_eq]; rfl, by rw [hw.tail_eq]; rfl⟩
        · intro _ a nd hl
          have := hw.lives a nd hl
          simp at this
    | cons a0 t =>
        constructor
        · intro hnone
          obtain ⟨nd0, hl0⟩ := chainOk_mem_live none hw.chain a0 (List.mem_cons_self _ _)
          exact (hnone a0 nd0 hl0).elim
        · intro hhd
          rw [hw.head_eq] at hhd
          simp at hhd
  exact ⟨s, hrun, hw.head_none_iff_tail_none, hempt,
    fun a nd hh hl => hw.head_prev_none hh hl,
    fun a nd ht hl => hw.tail_next_none ht hl,
    fun a b na nb hla hlb => hw.mutual_inverse hla hlb⟩

/-- C3: on a well-formed deque, by the time a pop reaches the extraction
point every other link designating the detached endpoint node has been
cleared (its remaining ownership count is zero, the pop's local handle
aside), and the `Rc::try_unwrap` fail-fast branch is never taken: the pops
never panic. -/
theorem pop_extraction_sole_owner {T : Type} (s : DList T) (c : List Nat)
    (hw : wfB s c = true) :
    (∀ a nd s1, s.detach_front = some (a, nd, s1) → refCount s1 a = 0) ∧
    (∀ a nd s1, s.detach_back = some (a, nd, s1) → refCount s1 a = 0) ∧
    s.pop_front ≠ none ∧ s.pop_back ≠ none := by
  have hwc := (wfB_iff_WfC s c).mp hw
  refine ⟨?_, ?_, ?_, ?_⟩
  · intro a nd s1 hd
    cases c with
    | nil =>
        have hh : s.head = none := by rw [hwc.head_eq]; rfl
        simp [DList.detach_front, hh] at hd
    | cons a0 c' =>
        obtain ⟨nd0, s10, hd0, hrc0, _, _, _⟩ := pop_front_cons hwc
        rw [hd0] at hd
        simp only [Option.some.injEq, Prod.mk.injEq] at hd
        obtain ⟨rfl, rfl, rfl⟩ := hd
        exact hrc0
  · intro a nd s1 hd
    rcases c.eq_nil_or_concat with rfl | ⟨c0, a0, hc⟩
    · have ht : s.tail = none := by rw [hwc.tail_eq]; rfl
      simp [DList.detach_back, ht] at hd
    · rw [List.concat_eq_append] at hc
      subst hc
      obtain ⟨nd0, s10, hd0, hrc0, _, _, _⟩ := pop_back_cons hwc
      rw [hd0] at hd
      simp only [Option.some.injEq, Prod.mk.injEq] at hd
      obtain ⟨rfl, rfl, rfl⟩ := hd
      exact hrc0
  · cases c with
    | nil =>
        have hh : s.head = none := by rw [hwc.head_eq]; rfl
        simp [pop_front_none hh]
    | cons a0 c' =>
        obtain ⟨nd0, s10, _, _, hpop, _, _⟩ := pop_front_cons hwc
        simp [hpop]
  · rcases c.eq_nil_or_concat with rfl | ⟨c0, a0, hc⟩
    · have ht : s.tail = none := by rw [hwc.tail_eq]; rfl
      simp [pop_back_none ht]
    · rw [List.concat_eq_append] at hc
      subst hc
      obtain ⟨nd0, s10, _, _, hpop, _, _⟩ := pop_back_cons hwc
      simp [hpop]

/-- Witness for C3 at the concrete deque `push_front 1; push_front 2`. -/
theorem pop_extraction_sole_owner_witness :
    ((DList.new.push_front (1 : Nat)).push_front 2).pop_front ≠ none ∧
    ((DList.new.push_front (1 : Nat)).push_front 2).pop_back ≠ none :=
  ⟨(pop_extraction_sole_owner _ [1, 0] (by decide)).2.2.1,
   (pop_extraction_sole_owner _ [1, 0] (by decide)).2.2.2⟩

/-- C4: pushing 1, 2, 3 with `push_front` and popping with `pop_front`
yields 3, 2, 1; popping the same pushed state with `pop_back` yields
1, 2, 3. -/
theorem lifo_fifo_duality :
    (runPops [true, true, true]
        (((DList.new.push_front (1 : Nat)).push_front 2).push_front 3)).map Prod.fst =
      some [some 3, some 2, some 1] ∧
    (runPops [false, false, false]
        (((DList.new.push_front (1 : Nat)).push_front 2).push_front 3)).map Prod.fst =
      some [some 1, some 2, some 3] := by
  exact ⟨rfl, rfl⟩

/-- C5: after `push_front 7; push_back 8; push_front 9`, `peek_front` is 9
and `peek_back` is 8, and the consuming iterator answers the call pattern
`next, next_back, next, next_back` with 9, 8, 7, absent. -/
theorem mixed_end_round_trip :
    (((DList.new.push_front (7 : Nat)).push_back 8).push_front 9).peek_front = some 9 ∧
    (((DList.new.push_front (7 : Nat)).push_back 8).push_front 9).peek_back = some 8 ∧
    (runIter [true, false, true, false]
        (((DList.new.push_front (7 : Nat)).push_back 8).push_front 9).into_iter).map
      (fun p => p.1.map Prod.snd) = some [some 9, some 8, some 7, none] := by
  exact ⟨rfl, rfl, rfl⟩

/-- C6: on an empty deque both pops and both peeks return the explicit
absent value, no pop panics, and the deque is left unchanged (hence still
empty). -/
theorem empty_deque_no_value {T : Type} (s : DList T)
    (hh : s.head = none) (ht : s.tail = none) :
    s.pop_front = some (none, s) ∧ s.pop_back = some (none, s) ∧
    s.peek_front = none ∧ s.peek_back = none :=
  ⟨pop_front_none hh, pop_back_none ht,
    by simp [DList.peek_front, hh], by simp [DList.peek_back, ht]⟩

/-- Witness for C6 at the freshly constructed empty deque. -/
theorem empty_deque_no_value_witness :
    (DList.new : DList Nat).pop_front = some (none, DList.new) ∧
    (DList.new : DList Nat).pop_back = some (none, DList.new) ∧
    (DList.new : DList Nat).peek_front = none ∧
    (DList.new : DList Nat).peek_back = none :=
  empty_deque_no_value DList.new rfl rfl

/-- C7: on a well-formed deque, any interleaving of `next`/`next_back` on
the consuming iterator succeeds, and the original contents split exactly
into the forward yields, the remaining contents, and the reversed backward
yields — each element is produced exactly once, in order; absent results
only ever follow absent results, and once the deque is exhausted both
directions keep reporting absence. -/
theorem iterator_each_element_once {T : Type} (s : DList T) (c : List Nat)
    (hw : wfB s c = true) (ds : List Bool) :
    ∃ outs s' c', runIter ds s.into_iter = some (outs, ⟨s'⟩) ∧ wfB s' c' = true ∧
      frontYields outs ++ chainVals s'.heap c' ++ (backYields outs).reverse =
        chainVals s.heap c ∧
      monotoneNone (outs.map Prod.snd) = true ∧
      (c' = [] → s'.pop_front = some (none, s') ∧ s'.pop_back = some (none, s')) := by
  have hwc := (wfB_iff_WfC s c).mp hw
  obtain ⟨outs, s', c', hrun, hw', heq, hmono⟩ := runIter_sim ds hwc
  refine ⟨outs, s', c', hrun, (wfB_iff_WfC _ _).mpr hw', heq, hmono, ?_⟩
  rintro rfl
  exact ⟨pop_front_none (by rw [hw'.head_eq]; rfl),
    pop_back_none (by rw [hw'.tail_eq]; rfl)⟩

/-- Witness for C7 on the deque `push_front 1; push_front 2` with calls
`next, next_back, next`. -/
theorem iterator_each_element_once_witness :
    (runIter [true, false, true]
      ((DList.new.push_front (1 : Nat)).push_front 2).into_iter).isSome = true := by
  obtain ⟨outs, s', c', hrun, _⟩ :=
    iterator_each_element_once ((DList.new.push_front (1 : Nat)).push_front 2) [1, 0]
      (by decide) [true, false, true]
  rw [hrun]
  rfl

/-- A successful `borrow_mut` acquisition comes from an unborrowed cell and
leaves it exclusively borrowed. -/
theorem tryBorrowMut_exclusive {fl : BorrowFlag} {f : BorrowFlag}
    (h : tryBorrowMut fl = some f) : f = BorrowFlag.exclusive := by
  cases fl with
  | free => simp [tryBorrowMut] at h; exact h.symm
  | shared n => simp [tryBorrowMut] at h
  | exclusive => simp [tryBorrowMut] at h

/-- C8: while the exclusive borrow obtained from `peek_front_mut` (resp.
`peek_back_mut`) is held, any further borrow attempt on that node — shared
or exclusive, including a second peek through the list — panics (yields
`none`) instead of succeeding. -/
theorem borrow_conflict_fails {T : Type} (s : DList T)
    (flagsF flagsB flagsF' flagsB' : Nat → BorrowFlag) (a b : Nat)
    (ha : peek_front_mut_acquire s flagsF = some (a, flagsF'))
    (hb : peek_back_mut_acquire s flagsB = some (b, flagsB')) :
    tryBorrow (flagsF' a) = none ∧ tryBorrowMut (flagsF' a) = none ∧
    peek_front_mut_acquire s flagsF' = none ∧
    tryBorrow (flagsB' b) = none ∧ tryBorrowMut (flagsB' b) = none ∧
    peek_back_mut_acquire s flagsB' = none := by
  rcases hh : s.head with _ | x
  · simp [peek_front_mut_acquire, hh] at ha
  rcases ht : s.tail with _ | y
  · simp [peek_back_mut_acquire, ht] at hb
  simp only [peek_front_mut_acquire, hh, Option.some_bind] at ha
  simp only [peek_back_mut_acquire, ht, Option.some_bind] at hb
  rcases hf : tryBorrowMut (flagsF x) with _ | f
  · rw [hf] at ha; simp at ha
  rcases hg : tryBorrowMut (flagsB y) with _ | g
  · rw [hg] at hb; simp at hb
  rw [hf] at ha
  rw [hg] at hb
  simp at ha hb
  obtain ⟨rfl, rfl⟩ := ha
  obtain ⟨rfl, rfl⟩ := hb
  have hfe : f = BorrowFlag.exclusive := tryBorrowMut_exclusive hf
  have hge : g = BorrowFlag.exclusive := tryBorrowMut_exclusive hg
  subst hfe hge
  have hup1 : Function.update flagsF x BorrowFlag.exclusive x = BorrowFlag.exclusive :=
    Function.update_same x _ flagsF
  have hup2 : Function.update flagsB y BorrowFlag.exclusive y = BorrowFlag.exclusive :=
    Function.update_same y _ flagsB
  refine ⟨?_, ?_, ?_, ?_, ?_, ?_⟩
  · rw [hup1]; rfl
  · rw [hup1]; rfl
  · simp [peek_front_mut_acquire, hh, hup1, tryBorrowMut]
  · rw [hup2]; rfl
  · rw [hup2]; rfl
  · simp [peek_back_mut_acquire, ht, hup2, tryBorrowMut]

/-- Witness for C8 on the deque `push_front 7; push_back 8`. -/
theorem borrow_conflict_fails_witness :
    tryBorrow (Function.update (fun _ => BorrowFlag.free) 0 BorrowFlag.exclusive 0) = none ∧
    tryBorrowMut (Function.update (fun _ => BorrowFlag.free) 0 BorrowFlag.exclusive 0) = none ∧
    peek_front_mut_acquire ((DList.new.push_front (7 : Nat)).push_back 8)
      (Function.update (fun _ => BorrowFlag.free) 0 BorrowFlag.exclusive) = none ∧
    tryBorrow (Function.update (fun _ => BorrowFlag.free) 1 BorrowFlag.exclusive 1) = none ∧
    tryBorrowMut (Function.update (fun _ => BorrowFlag.free) 1 BorrowFlag.exclusive 1) = none ∧
    peek_back_mut_acquire ((DList.new.push_front (7 : Nat)).push_back 8)
      (Function.update (fun _ => BorrowFlag.free) 1 BorrowFlag.exclusive) = none :=
  borrow_conflict_fails ((DList.new.push_front (7 : Nat)).push_back 8)
    (fun _ => BorrowFlag.free) (fun _ => BorrowFlag.free) _ _ 0 1 rfl rfl

/-- C9: writing through the handle of `peek_front_mut` (resp.
`peek_back_mut`) overwrites the endpoint's element in place: a subsequent
`peek_front` (resp. `peek_back`) returns the written value, the head and
tail links and every node's `next`/`prev` links are untouched, the deque
stays well formed over the same chain, and the sequence of all other
elements is unchanged. -/
theorem peek_mut_write_in_place {T : Type} (s : DList T) (c : List Nat) (v : T)
    (hw : wfB s c = true) :
    (∀ a, s.head = some a → ∃ c',
      c = a :: c' ∧
      (s.peek_front_mut_write v).peek_front = some v ∧
      (s.peek_front_mut_write v).head = s.head ∧
      (s.peek_front_mut_write v).tail = s.tail ∧
      wfB (s.peek_front_mut_write v) c = true ∧
      chainVals (s.peek_front_mut_write v).heap c = v :: chainVals s.heap c' ∧
      (∀ b nd', lookupNode (s.peek_front_mut_write v).heap b = some nd' →
        ∃ nd, lookupNode s.heap b = some nd ∧ nd'.next = nd.next ∧ nd'.prev = nd.prev)) ∧
    (∀ a, s.tail = some a → ∃ c0,
      c = c0 ++ [a] ∧
      (s.peek_back_mut_write v).peek_back = some v ∧
      (s.peek_back_mut_write v).head = s.head ∧
      (s.peek_back_mut_write v).tail = s.tail ∧
      wfB (s.peek_back_mut_write v) c = true ∧
      chainVals (s.peek_back_mut_write v).heap c = chainVals s.heap c0 ++ [v] ∧
      (∀ b nd', lookupNode (s.peek_back_mut_write v).heap b = some nd' →
        ∃ nd, lookupNode s.heap b = some nd ∧ nd'.next = nd.next ∧ nd'.prev = nd.prev)) := by
  have hwc := (wfB_iff_WfC s c).mp hw
  constructor
  · intro a hh
    obtain ⟨c', rfl⟩ : ∃ c', c = a :: c' := by
      have hhe := hwc.head_eq; rw [hh] at hhe
      cases c with
      | nil => simp at hhe
      | cons x t =>
          simp only [List.head?_cons] at hhe
          exact ⟨t, by rw [← Option.some_inj.mp hhe]⟩
    obtain ⟨nd, hla, hprev, hnext⟩ := chainOk_split [] none hwc.chain
    have hpoke : s.peek_front_mut_write v =
        { s with heap := modifyNode s.heap a (fun m => { m with elem := v }) } := by
      simp [DList.peek_front_mut_write, hh]
    have hhd : (s.peek_front_mut_write v).head = s.head := by rw [hpoke]
    have htl : (s.peek_front_mut_write v).tail = s.tail := by rw [hpoke]
    have hlk : ∀ b, lookupNode (s.peek_front_mut_write v).heap b =
        if b = a then some { nd with elem := v } else lookupNode s.heap b := by
      intro b
      rw [hpoke]
      show lookupNode (modifyNode s.heap a _) b = _
      rw [lookupNode_modify]
      by_cases hba : b = a
      · simp [hba, hla]
      · simp [hba]
    have hanotin : a ∉ c' := (List.nodup_cons.mp hwc.nodup).1
    refine ⟨c', rfl, ?_, hhd, htl, ?_, ?_, ?_⟩
    · simp [DList.peek_front, hhd, hh, hlk a]
    · refine (wfB_iff_WfC _ _).mpr ⟨?_, ?_, ?_, hwc.nodup, ?_⟩
      · rw [hhd]; exact hwc.head_eq
      · rw [htl]; exact hwc.tail_eq
      · rw [@chainOk_congr _ _ s.heap _ ?_ none]
        · exact hwc.chain
        · intro b hb
          rw [hlk b]
          by_cases hba : b = a
          · subst hba; simp [hla]
          · simp [hba]
      · intro b nd' hl'
        rw [hlk b] at hl'
        by_cases hba : b = a
        · subst hba; exact List.mem_cons_self _ _
        · rw [if_neg hba] at hl'
          exact hwc.lives b nd' hl'
    · have hstep : chainVals (s.peek_front_mut_write v).heap (a :: c') =
          v :: chainVals (s.peek_front_mut_write v).heap c' := by
        simp [chainVals, hlk a]
      rw [hstep]
      congr 1
      apply chainVals_congr
      intro b hb
      rw [hlk b, if_neg (show b ≠ a from fun hx => hanotin (hx ▸ hb))]
    · intro b nd' hl'
      rw [hlk b] at hl'
      by_cases hba : b = a
      · rw [if_pos hba] at hl'
        have hnd' : nd' = { nd with elem := v } := by injection hl' with h; exact h.symm
        subst hnd'
        exact ⟨nd, hba ▸ hla, rfl, rfl⟩
      · rw [if_neg hba] at hl'
        exact ⟨nd', hl', rfl, rfl⟩
  · intro a ht
    obtain ⟨c0, rfl⟩ : ∃ c0, c = c0 ++ [a] := by
      have hte := hwc.tail_eq; rw [ht] at hte
      exact List.getLast?_eq_some_iff.mp hte.symm
    obtain ⟨nd, hla, hprev, hnext⟩ := chainOk_split c0 none hwc.chain
    have hpoke : s.peek_back_mut_write v =
        { s with heap := modifyNode s.heap a (fun m => { m with elem := v }) } := by
      simp [DList.peek_back_mut_write, ht]
    have hhd : (s.peek_back_mut_write v).head = s.head := by rw [hpoke]
    have htl : (s.peek_back_mut_write v).tail = s.tail := by rw [hpoke]
    have hlk : ∀ b, lookupNode (s.peek_back_mut_write v).heap b =
        if b = a then some { nd with elem := v } else lookupNode s.heap b := by
      intro b
      rw [hpoke]
      show lookupNode (modifyNode s.heap a _) b = _
      rw [lookupNode_modify]
      by_cases hba : b = a
      · simp [hba, hla]
      · simp [hba]
    have hanotin : a ∉ c0 := by
      have hnodup := hwc.nodup
      rw [List.nodup_append] at hnodup
      intro hx
      exact hnodup.2.2 hx (List.mem_cons_self _ _)
    refine ⟨c0, rfl, ?_, hhd, htl, ?_, ?_, ?_⟩
    · simp [DList.peek_back, htl, ht, hlk a]
    · refine (wfB_iff_WfC _ _).mpr ⟨?_, ?_, ?_, hwc.nodup, ?_⟩
      · rw [hhd]; exact hwc.head_eq
      · rw [htl]; exact hwc.tail_eq
      · rw [@chainOk_congr _ _ s.heap _ ?_ none]
        · exact hwc.chain
        · intro b hb
          rw [hlk b]
          by_cases hba : b = a
          · subst hba; simp [hla]
          · simp [hba]
      · intro b nd' hl'
        rw [hlk b] at hl'
        by_cases hba : b = a
        · subst hba; exact List.mem_append_right _ (by simp)
        · rw [if_neg hba] at hl'
          exact hwc.lives b nd' hl'
    · rw [chainVals, List.filterMap_append, ← chainVals, ← chainVals]
      have hstep : chainVals (s.peek_back_mut_write v).heap [a] = [v] := by
        simp [chainVals, hlk a]
      rw [hstep]
      congr 1
      apply chainVals_congr
      intro b hb
      rw [hlk b, if_neg (show b ≠ a from fun hx => hanotin (hx ▸ hb))]
    · intro b nd' hl'
      rw [hlk b] at hl'
      by_cases hba : b = a
      · rw [if_pos hba] at hl'
        have hnd' : nd' = { nd with elem := v } := by injection hl' with h; exact h.symm
        subst hnd'
        exact ⟨nd, hba ▸ hla, rfl, rfl⟩
      · rw [if_neg hba] at hl'
        exact ⟨nd', hl', rfl, rfl⟩

/-- Witness for C9: overwriting the front of `push_front 30; push_front 20`
with 100 is seen by the next `peek_front`. -/
theorem peek_mut_write_in_place_witness :
    (((DList.new.push_front (30 : Nat)).push_front 20).peek_front_mut_write 100).peek_front =
      some 100 := by
  obtain ⟨c', _, hpeek, _⟩ :=
    (peek_mut_write_in_place (((DList.new.push_front (30 : Nat)).push_front 20)) [1, 0] 100
      (by decide)).1 1 rfl
  exact hpeek

/-- C10: on a well-formed deque, `push_front v` followed by `pop_front`
returns `v` and leaves the deque with its original head and tail links and
exactly the original sequence of elements; symmetrically for
`push_back v` followed by `pop_back`. -/
theorem push_pop_roundtrip {T : Type} (s : DList T) (c : List Nat) (v : T)
    (hw : wfB s c = true) :
    (∃ s', (s.push_front v).pop_front = some (some v, s') ∧
      s'.head = s.head ∧ s'.tail = s.tail ∧ wfB s' c = true ∧
      chainVals s'.heap c = chainVals s.heap c) ∧
    (∃ s', (s.push_back v).pop_back = some (some v, s') ∧
      s'.head = s.head ∧ s'.tail = s.tail ∧ wfB s' c = true ∧
      chainVals s'.heap c = chainVals s.heap c) := by
  have hwc := (wfB_iff_WfC s c).mp hw
  constructor
  · obtain ⟨hw2, hv2⟩ := push_front_sim hwc v
    obtain ⟨nd, s1, _, _, hpop, hwf2, hvals⟩ := pop_front_cons hw2
    have hcomb := hv2.symm.trans hvals
    rw [List.cons.injEq] at hcomb
    obtain ⟨he, hrest⟩ := hcomb
    refine ⟨{ heap := freeAt s1.heap s.heap.length, head := s1.head, tail := s1.tail },
      ?_, ?_, ?_, ?_, ?_⟩
    · rw [← he] at hpop; exact hpop
    · rw [hwf2.head_eq, hwc.head_eq]
    · rw [hwf2.tail_eq, hwc.tail_eq]
    · exact (wfB_iff_WfC _ _).mpr hwf2
    · exact hrest.symm
  · obtain ⟨hw2, hv2⟩ := push_back_sim hwc v
    obtain ⟨nd, s1, _, _, hpop, hwf2, hvals⟩ := pop_back_cons hw2
    have hcomb := hv2.symm.trans hvals
    have hcomb2 := congrArg List.reverse hcomb
    simp only [List.reverse_append, List.reverse_cons, List.reverse_nil,
      List.nil_append, List.singleton_append, List.cons.injEq] at hcomb2
    obtain ⟨he, hrest2⟩ := hcomb2
    have hrest : chainVals s.heap c = chainVals (freeAt s1.heap s.heap.length) c := by
      have h3 := congrArg List.reverse hrest2
      simpa using h3
    refine ⟨{ heap := freeAt s1.heap s.heap.length, head := s1.head, tail := s1.tail },
      ?_, ?_, ?_, ?_, ?_⟩
    · rw [← he] at hpop; exact hpop
    · rw [hwf2.head_eq, hwc.head_eq]
    · rw [hwf2.tail_eq, hwc.tail_eq]
    · exact (wfB_iff_WfC _ _).mpr hwf2
    · exact hrest.symm

/-- Witness for C10 on the one-element deque `push_front 5` with value 9. -/
theorem push_pop_roundtrip_witness :
    (((DList.new.push_front (5 : Nat)).push_front 9).pop_front).map Prod.fst =
      some (some 9) ∧
    (((DList.new.push_front (5 : Nat)).push_back 9).pop_back).map Prod.fst =
      some (some 9) := by
  constructor
  · obtain ⟨s', hpop, _⟩ :=
      (push_pop_roundtrip (DList.new.push_front (5 : Nat)) [0] 9 (by decide)).1
    rw [hpop]; rfl
  · obtain ⟨s', hpop, _⟩ :=
      (push_pop_roundtrip (DList.new.push_front (5 : Nat)) [0] 9 (by decide)).2
    rw [hpop]; rfl

end SimpleDeque
